import Mathlib

/-
  Verification of the herald IPNI publisher engine.

  Shallow embedding of the Go sources: the content-addressed block store and
  chain head are modelled as explicit state (`BState`); CIDs are modelled as
  the natural numbers 1, 2, ... handed out by the store in storage order
  (content addressing is abstracted to fresh-id allocation, which is faithful
  for the properties proved here: within one chain no two stored nodes are
  equal, so distinct stores yield distinct CIDs), with 0 reserved for the
  `schema.NoEntries` sentinel link.  Multihashes and byte strings are opaque
  lists of naturals.  Fallible Go functions return `Except`/`Option` together
  with the state they leave behind.
-/

namespace Herald

/-- Opaque multihash: a variable-length byte string. -/
abbrev Multihash := List Nat

/-- Opaque byte string (ContextID, metadata, encoded values). -/
abbrev Bytes := List Nat

/-- Content identifier of a stored block. The model allocates 1, 2, ... in
storage order; 0 is reserved for the `schema.NoEntries` sentinel. -/
abbrev Cid := Nat

/-- The `schema.NoEntries` well-known sentinel link (never a stored block). -/
def noEntriesCid : Cid := 0

/-- IPLD advertisement record, from `schema.Advertisement` as populated by
`generateAdvertisement` (advertisements.go).  The signature is not modelled:
signing is treated as always succeeding here, and signing/encoding failure is
covered by the generic failing inner function of `UpdateHead` (claim C2). -/
structure Ad where
  previousID : Option Cid
  provider : String
  addresses : List String
  entries : Option Cid
  contextID : Bytes
  metadata : Bytes
  isRm : Bool
deriving Repr, DecidableEq

/-- A block stored in the backend: either an entry chunk or an advertisement. -/
inductive Node where
  | entryChunk (entries : List Multihash) (next : Option Cid)
  | advertisement (ad : Ad)
deriving Repr, DecidableEq

/-- Backend state: content-addressed blocks (most recently stored first) plus
the chain head (`none` models `cid.Undef`). -/
structure BState where
  blocks : List (Cid × Node)
  head : Option Cid
deriving Repr, DecidableEq

/-- Look a block up by CID. -/
def findBlock : List (Cid × Node) → Cid → Option Node
  | [], _ => none
  | (k, nd) :: rest, c => if c = k then some nd else findBlock rest c

/-- Fresh CID for the next stored block. -/
def BState.freshCid (s : BState) : Cid := s.blocks.length + 1

/-- `backend.Store`: serialize a node, compute its CID, persist the block. -/
def BState.store (s : BState) (nd : Node) : Cid × BState :=
  (s.freshCid, { s with blocks := (s.freshCid, nd) :: s.blocks })

/-- The empty backend: no blocks, undefined head. -/
def BState.empty : BState := { blocks := [], head := none }

/-- Chain configuration (advertisements.go `ChainConfig`); only the fields the
modelled code paths read. -/
structure ChainConfig where
  adEntriesChunkSize : Nat
  providerId : String
  providerAddrs : List String
  metadata : Bytes
deriving Repr, DecidableEq

/-- A catalog, embedded at the `Catalog` interface (catalog.go): optional
ContextID, count (−1 when unknown), and the multihash sequence its iterator
yields. -/
structure Catalog where
  id : Bytes
  count : Int
  mhs : List Multihash
deriving Repr, DecidableEq

/-- `generateEntriesChunk` (advertisements.go:121): store one entry chunk,
chained to `next`. -/
def generateEntriesChunk (s : BState) (next : Option Cid) (mhs : List Multihash) :
    Cid × BState :=
  s.store (.entryChunk mhs next)

/-- The iteration loop of `generateEntries` (advertisements.go:91-114): buffer
multihashes, store a chunk whenever the buffer reaches `size`, and flush the
residue after exhaustion. `buf` is the `mhs` buffer, `next` the link of the
previously written chunk. -/
def generateEntriesGo (size : Nat) :
    List Multihash → List Multihash → Option Cid → BState → Option Cid × BState
  | [], buf, next, s =>
      if buf = [] then (next, s)
      else
        let r := generateEntriesChunk s next buf
        (some r.1, r.2)
  | mh :: rest, buf, next, s =>
      let buf' := buf ++ [mh]
      if size ≤ buf'.length then
        let r := generateEntriesChunk s next buf'
        generateEntriesGo size rest [] (some r.1) r.2
      else
        generateEntriesGo size rest buf' next s

/-- `generateEntries` (advertisements.go:79): produce the linked chunks holding
the catalog's multihashes; returns the link of the chunk written last, `none`
for an empty catalog. -/
def generateEntries (size : Nat) (mhs : List Multihash) (s : BState) :
    Option Cid × BState :=
  generateEntriesGo size mhs [] none s

/-- `generateAdvertisement` (advertisements.go:133): inside `UpdateHead`, build
the advertisement with `PreviousID` equal to the current head (null when the
head is undefined), store it, and advance the head to its CID. -/
def generateAdvertisement (cfg : ChainConfig) (id : Bytes) (entries : Option Cid)
    (isRm : Bool) (s : BState) : Cid × BState :=
  let ad : Ad :=
    { previousID := s.head
      provider := cfg.providerId
      addresses := cfg.providerAddrs
      entries := entries
      contextID := id
      metadata := cfg.metadata
      isRm := isRm }
  let r := s.store (.advertisement ad)
  (r.1, { blocks := r.2.blocks, head := some r.1 })

/-- Errors surfaced by the assembler strategies. -/
inductive HError where
  | invalidInput
deriving Repr, DecidableEq

/-- `PublishWithContextID` (advertisements.go:37): refuse when the catalog has
no ContextID, else generate the entry chunks and one advertisement. -/
def PublishWithContextID (cfg : ChainConfig) (cat : Catalog) (s : BState) :
    Except HError Cid × BState :=
  if cat.id.length = 0 then (.error .invalidInput, s)
  else
    let e := generateEntries cfg.adEntriesChunkSize cat.mhs s
    let r := generateAdvertisement cfg cat.id e.1 false e.2
    (.ok r.1, r.2)

/-- `RetractWithContextID` (advertisements.go:52): one retraction advertisement
carrying the `NoEntries` sentinel. -/
def RetractWithContextID (cfg : ChainConfig) (cat : Catalog) (s : BState) :
    Except HError Cid × BState :=
  let r := generateAdvertisement cfg cat.id (some noEntriesCid) true s
  (.ok r.1, r.2)

/-- `PublishRawMHs` (advertisements.go:57): publish without ContextID. -/
def PublishRawMHs (cfg : ChainConfig) (cat : Catalog) (s : BState) :
    Except HError Cid × BState :=
  let e := generateEntries cfg.adEntriesChunkSize cat.mhs s
  let r := generateAdvertisement cfg [] e.1 false e.2
  (.ok r.1, r.2)

/-- `RetractRawMHs` (advertisements.go:68): retraction carrying all the
multihashes, without ContextID. -/
def RetractRawMHs (cfg : ChainConfig) (cat : Catalog) (s : BState) :
    Except HError Cid × BState :=
  let e := generateEntries cfg.adEntriesChunkSize cat.mhs s
  let r := generateAdvertisement cfg [] e.1 true e.2
  (.ok r.1, r.2)

/-- One backend-mutating operation of the assembler, for chain-level traces:
either an entry-chunk `Store` (issued by `generateEntries`, outside the head
lock) or one advertisement write (`generateAdvertisement`, under the lock). -/
inductive ChainOp where
  | storeChunk (entries : List Multihash) (next : Option Cid)
  | writeAd (cfg : ChainConfig) (id : Bytes) (entries : Option Cid) (isRm : Bool)
deriving Repr, DecidableEq

/-- Apply one operation to the backend state. -/
def ChainOp.apply (s : BState) : ChainOp → BState
  | .storeChunk es next => (generateEntriesChunk s next es).2
  | .writeAd cfg id entries isRm => (generateAdvertisement cfg id entries isRm s).2

/-- Run a trace of operations left to right. -/
def runOps : List ChainOp → BState → BState
  | [], s => s
  | op :: ops, s => runOps ops (op.apply s)

/-- Number of advertisement writes in a trace. -/
def countAds : List ChainOp → Nat
  | [] => 0
  | .storeChunk _ _ :: ops => countAds ops
  | .writeAd _ _ _ _ :: ops => countAds ops + 1

/-- Follow `PreviousID` from an advertisement CID for `k` steps.  Returns the
CID reached, or `none` when a step hits a missing block, a non-advertisement
block, or a null `PreviousID`. -/
def walkPrev (blocks : List (Cid × Node)) : Nat → Cid → Option Cid
  | 0, c => some c
  | k + 1, c =>
      match findBlock blocks c with
      | some (.advertisement ad) =>
          match ad.previousID with
          | some p => walkPrev blocks k p
          | none => none
      | _ => none

/-- `c` heads a linear advertisement chain of exactly `n` links ending in a
null `PreviousID`, every CID on the chain being a live block id (needed to
show that storing fresh blocks preserves the chain). -/
inductive ChainOk (blocks : List (Cid × Node)) : Nat → Cid → Prop where
  | base (c : Cid) (ad : Ad) : 1 ≤ c → c ≤ blocks.length →
      findBlock blocks c = some (.advertisement ad) → ad.previousID = none →
      ChainOk blocks 1 c
  | step (c p : Cid) (n : Nat) (ad : Ad) : 1 ≤ c → c ≤ blocks.length →
      findBlock blocks c = some (.advertisement ad) → ad.previousID = some p →
      ChainOk blocks n p → ChainOk blocks (n + 1) c

/-- The head invariant maintained by the assembler: after `n` advertisement
writes the head is undefined iff `n = 0`, and otherwise heads a linear chain
of exactly `n` advertisements. -/
def HeadInv (s : BState) (n : Nat) : Prop :=
  (n = 0 ∧ s.head = none) ∨ ∃ h, s.head = some h ∧ ChainOk s.blocks n h

/-- Traverse the entry-chunk chain from a link: the `(CID, Entries)` pairs in
the order visited by following `Next`, with enough fuel.  Traversal stops at a
null link, a missing block, or a non-chunk block. -/
def chunksAlong (blocks : List (Cid × Node)) : Nat → Option Cid → List (Cid × List Multihash)
  | _, none => []
  | 0, some _ => []
  | fuel + 1, some c =>
      match findBlock blocks c with
      | some (.entryChunk es next) => (c, es) :: chunksAlong blocks fuel next
      | _ => []

/-- A link is valid when it points at a live block id. -/
def OptValid (blocks : List (Cid × Node)) (oc : Option Cid) : Prop :=
  ∀ m, oc = some m → 1 ≤ m ∧ m ≤ blocks.length

/-- Well-formedness of the block store: every stored block id is in
`1..blocks.length`, and every chunk's `Next` points strictly below its own id
(chunks are chained to previously written chunks). -/
def BlocksWF (blocks : List (Cid × Node)) : Prop :=
  (∀ c nd, findBlock blocks c = some nd → 1 ≤ c ∧ c ≤ blocks.length) ∧
  (∀ c es next m, findBlock blocks c = some (.entryChunk es next) →
    next = some m → 1 ≤ m ∧ m < c)

/-- Entries of a node (the chunk payload; empty for advertisements). -/
def entriesOfNode : Node → List Multihash
  | .entryChunk es _ => es
  | .advertisement _ => []

/-- Number of advertisement blocks in a block list. -/
def adsIn (blocks : List (Cid × Node)) : Nat :=
  blocks.countP fun p =>
    match p.2 with
    | .advertisement _ => true
    | _ => false

/-- Batch configuration (advertisement_batching.go `BatchConfig`); `Count()`
is an `int` that may be −1, so the threshold comparison is over `Int`. -/
structure BatchConfig where
  countThreshold : Int
  maxMHsPerAdvertisement : Nat
deriving Repr, DecidableEq

/-- Outcome of the channel hand-off `select` in `PublishCatalog` /
`RetractCatalog`: either the worker accepted the catalog or the caller's
context was cancelled first (carrying `ctx.Err()`). -/
inductive Handoff where
  | accepted
  | cancelled (e : Nat)
deriving Repr, DecidableEq

/-- Error returned to the caller of `PublishCatalog` / `RetractCatalog`. -/
inductive BatchErr where
  | chain (e : HError)
  | announce (e : Nat)
  | ctx (e : Nat)
deriving Repr, DecidableEq

/-- Caller-visible outcome of one `PublishCatalog` / `RetractCatalog` call:
the returned error (`none` is Go's nil), the backend state afterwards, and
the catalog handed to the batching channel, if any. -/
structure CallResult where
  ret : Option BatchErr
  state : BState
  enqueuedCat : Option Catalog
deriving Repr, DecidableEq

/-- `CatalogBatcher.PublishCatalog` (advertisement_batching.go:81): large
catalogs (`Count() > CountThreshold`) pass through `PublishWithContextID`
followed by `announce.Send` synchronously; small ones are handed to the
publish channel.  `announceErr` is the oracle for the sender's result,
`handoff` for the `select` over the channel and `ctx.Done()`. -/
def CatalogBatcher.PublishCatalog (bc : BatchConfig) (cfg : ChainConfig)
    (announceErr : Cid → Option Nat) (handoff : Handoff) (cat : Catalog)
    (s : BState) : CallResult :=
  if bc.countThreshold < cat.count then
    match PublishWithContextID cfg cat s with
    | (.error e, s1) => ⟨some (.chain e), s1, none⟩
    | (.ok newHead, s1) =>
        match announceErr newHead with
        | some a => ⟨some (.announce a), s1, none⟩
        | none => ⟨none, s1, none⟩
  else
    match handoff with
    | .accepted => ⟨none, s, some cat⟩
    | .cancelled e => ⟨some (.ctx e), s, none⟩

/-- `CatalogBatcher.RetractCatalog` (advertisement_batching.go:104): the
retract mirror of `PublishCatalog`, using `RetractWithContextID`. -/
def CatalogBatcher.RetractCatalog (bc : BatchConfig) (cfg : ChainConfig)
    (announceErr : Cid → Option Nat) (handoff : Handoff) (cat : Catalog)
    (s : BState) : CallResult :=
  if bc.countThreshold < cat.count then
    match RetractWithContextID cfg cat s with
    | (.error e, s1) => ⟨some (.chain e), s1, none⟩
    | (.ok newHead, s1) =>
        match announceErr newHead with
        | some a => ⟨some (.announce a), s1, none⟩
        | none => ⟨none, s1, none⟩
  else
    match handoff with
    | .accepted => ⟨none, s, some cat⟩
    | .cancelled e => ⟨some (.ctx e), s, none⟩

/-- Batcher worker state (advertisement_batching.go:127): the multihash batch
buffer and whether the single-shot timer is armed (`timer != nil`). -/
structure WState where
  batch : List Multihash
  timerArmed : Bool
deriving Repr, DecidableEq

deriving instance DecidableEq for Except

/-- Record of one flush (`send()`): the batch contents it advertised, the
assembler strategy's result, and whether the announcement was attempted and
succeeded.  Flush errors are logged and dropped, never returned. -/
structure FlushRec where
  contents : List Multihash
  result : Except Nat Cid
  announced : Bool
deriving Repr, DecidableEq

/-- The `send` closure of `runBatcher` (advertisement_batching.go:134): kill
the timer, run the strategy on a catalog synthesized from the batch, announce
on success, and reset the batch whatever happened (deferred reset). -/
def workerSend (fnResult : List Multihash → Except Nat Cid)
    (announceOk : Cid → Bool) (s : WState) : WState × FlushRec :=
  let contents := s.batch
  let res := fnResult contents
  let ann :=
    match res with
    | .ok c => announceOk c
    | .error _ => false
  (⟨[], false⟩, ⟨contents, res, ann⟩)

/-- One worker event: a catalog arriving on the channel (its full multihash
sequence) or the timer firing. -/
inductive WEvent where
  | arrival (catMhs : List Multihash)
  | timerFire
deriving Repr, DecidableEq

/-- One iteration of the `runBatcher` select loop
(advertisement_batching.go:160-190): on arrival, drain the whole catalog into
the batch, flush when the batch reaches `maxMHs`, else arm the timer; on timer
fire, flush. -/
def workerStep (maxMHs : Nat) (fnResult : List Multihash → Except Nat Cid)
    (announceOk : Cid → Bool) (s : WState) : WEvent → WState × Option FlushRec
  | .timerFire =>
      let r := workerSend fnResult announceOk s
      (r.1, some r.2)
  | .arrival catMhs =>
      let batch' := s.batch ++ catMhs
      if maxMHs ≤ batch'.length then
        let r := workerSend fnResult announceOk ⟨batch', s.timerArmed⟩
        (r.1, some r.2)
      else
        (⟨batch', true⟩, none)

/-- Run the worker over a sequence of events, collecting the flush records in
chronological order. -/
def runWorker (maxMHs : Nat) (fnResult : List Multihash → Except Nat Cid)
    (announceOk : Cid → Bool) : List WEvent → WState → WState × List FlushRec
  | [], s => (s, [])
  | ev :: evs, s =>
      let r := workerStep maxMHs fnResult announceOk s ev
      let rest := runWorker maxMHs fnResult announceOk evs r.1
      (rest.1, match r.2 with
        | some rec => rec :: rest.2
        | none => rest.2)

/-- The multihashes of the arrival events of a worker event sequence, in
arrival order. -/
def arrivalsOf : List WEvent → List (List Multihash)
  | [] => []
  | .arrival catMhs :: evs => catMhs :: arrivalsOf evs
  | .timerFire :: evs => arrivalsOf evs

/-- Toy CID byte encoding for the `head → bytes(CID)` record of the embedded
backend; a bijection, standing in for `cid.Bytes` / `cid.CidFromBytes`. -/
def cidToBytes (c : Cid) : Bytes := [c]

/-- Decode head bytes back to a CID; fails on malformed bytes. -/
def cidFromBytes : Bytes → Option Cid
  | [c] => some c
  | _ => none

/-- Failure of an internal head read (decoding the stored head). -/
inductive HeadReadErr where
  | decodeFailure
deriving Repr, DecidableEq

/-- Failure of `UpdateHead`, generic in the inner function's error type. -/
inductive UpdateErr (α : Type) where
  | getFailed
  | inner (e : α)
  | setFailed
deriving DecidableEq

/-- The embedded key-value backend `dsBackend` (catalog_bs.go): the in-memory
head cache (`cid.Undef` is `none`) and the datastore's `head` record.  Block
records live under CID keys and are untouched by the head path, so they are
not represented here. -/
structure DsBackend where
  cache : Option Cid
  dsHead : Option Bytes
deriving Repr, DecidableEq

/-- `dsBackend.getHead` (catalog_bs.go:106): return the cached head if set,
else read and decode the datastore record (not-found means `cid.Undef`),
caching the result. -/
def DsBackend.getHead (b : DsBackend) : Except HeadReadErr (Option Cid) × DsBackend :=
  match b.cache with
  | some h => (.ok (some h), b)
  | none =>
      match b.dsHead with
      | none => (.ok none, b)
      | some v =>
          match cidFromBytes v with
          | none => (.error .decodeFailure, b)
          | some h => (.ok (some h), { b with cache := some h })

/-- `dsBackend.setHead` (catalog_bs.go:127): refuse an undefined head, else
persist the CID bytes and update the cache. -/
def DsBackend.setHead (_b : DsBackend) : Option Cid → Except Unit DsBackend
  | none => .error ()
  | some h => .ok { cache := some h, dsHead := some (cidToBytes h) }

/-- `dsBackend.UpdateHead` (catalog_bs.go:87): under the exclusive lock, read
the current head, run `fn`, and persist its result; any error aborts without
committing.  Returns the error outcome together with the backend state left
behind (the read may have populated the cache). -/
def DsBackend.UpdateHead {α : Type} (b : DsBackend)
    (fn : Option Cid → Except α (Option Cid)) : Except (UpdateErr α) Unit × DsBackend :=
  let g := b.getHead
  match g.1 with
  | .error _ => (.error .getFailed, g.2)
  | .ok prevHead =>
      match fn prevHead with
      | .error e => (.error (.inner e), g.2)
      | .ok newHead =>
          match g.2.setHead newHead with
          | .error _ => (.error .setFailed, g.2)
          | .ok b2 => (.ok (), b2)

/-- `dsBackend.GetHead` (catalog_bs.go:148): the shared-lock public read. -/
def DsBackend.GetHead (b : DsBackend) : Except HeadReadErr (Option Cid) × DsBackend :=
  b.getHead

/-- An object stored in the S3 bucket. -/
structure S3Object where
  body : Bytes
  contentType : String
  cacheControl : String
deriving Repr, DecidableEq

/-- Look an object up by key. -/
def lookupObj : List (String × S3Object) → String → Option S3Object
  | [], _ => none
  | (k, o) :: rest, key => if key = k then some o else lookupObj rest key

/-- `PutObject`: overwrite-or-insert at a key. -/
def putObj : List (String × S3Object) → String → S3Object → List (String × S3Object)
  | [], key, o => [(key, o)]
  | (k, o0) :: rest, key, o =>
      if key = k then (k, o) :: rest else (k, o0) :: putObj rest key o

/-- Toy encoding of the signed head message built by `head.NewSignedHead` +
`Encode` (a bijection on CIDs; signature and topic are outside the model). -/
def signedHeadEncode (c : Cid) : Bytes := [c]

/-- Decoding of a signed head message (`head.Decode`). -/
def signedHeadDecode : Bytes → Option Cid
  | [c] => some c
  | _ => none

/-- The object-storage backend `S3Backend` (src/unnamed/part_001): in-memory
head cache plus the bucket contents. -/
structure S3Backend where
  cache : Option Cid
  bucket : List (String × S3Object)
deriving Repr, DecidableEq

/-- The key `S3Backend.setHead` writes the signed head to
(src/unnamed/part_001:164). -/
def s3HeadWriteKey : String := "/ipni/v1/ad/head"

/-- The key `S3Backend.getHead` reads (src/unnamed/part_001:122). -/
def s3HeadReadKey : String := "head"

/-- `S3Backend.getHead` (src/unnamed/part_001:115): return the cached head if
set, else `GetObject` the head key (`NoSuchKey` means `cid.Undef`), decode the
signed head, and cache the CID. -/
def S3Backend.getHead (b : S3Backend) : Except HeadReadErr (Option Cid) × S3Backend :=
  match b.cache with
  | some h => (.ok (some h), b)
  | none =>
      match lookupObj b.bucket s3HeadReadKey with
      | none => (.ok none, b)
      | some obj =>
          match signedHeadDecode obj.body with
          | none => (.error .decodeFailure, b)
          | some h => (.ok (some h), { b with cache := some h })

/-- `S3Backend.setHead` (src/unnamed/part_001:147): refuse an undefined head,
else `PutObject` the signed head message and update the cache. -/
def S3Backend.setHead (b : S3Backend) : Option Cid → Except Unit S3Backend
  | none => .error ()
  | some h =>
      .ok { cache := some h
            bucket := putObj b.bucket s3HeadWriteKey
              ⟨signedHeadEncode h, "application/json", "no-cache, no-store, must-revalidate"⟩ }

/-- `S3Backend.UpdateHead` (src/unnamed/part_001:94): same read-modify-write
discipline as the embedded backend. -/
def S3Backend.UpdateHead {α : Type} (b : S3Backend)
    (fn : Option Cid → Except α (Option Cid)) : Except (UpdateErr α) Unit × S3Backend :=
  let g := b.getHead
  match g.1 with
  | .error _ => (.error .getFailed, g.2)
  | .ok prevHead =>
      match fn prevHead with
      | .error e => (.error (.inner e), g.2)
      | .ok newHead =>
          match g.2.setHead newHead with
          | .error _ => (.error .setFailed, g.2)
          | .ok b2 => (.ok (), b2)

/-- Block codec of a CID (`cid.Prefix().Codec`). -/
inductive Codec where
  | dagJSON
  | dagCBOR
  | codecOther (n : Nat)
deriving Repr, DecidableEq

/-- A CID as seen by the HTTP handler: codec plus opaque digest characters. -/
structure HCid where
  codec : Codec
  digest : List Char
deriving Repr, DecidableEq

/-- Modelled from the external library `cid.Decode`: parse the string form of
a CID (simplified shape: a multibase marker, a codec tag, then a nonempty
digest).  The proofs rely only on the fact that the empty string and the
string consisting of one slash are not valid CID strings, which holds of the
real parser. -/
def cidDecode : List Char → Option HCid
  | 'b' :: 'j' :: c :: rest => some ⟨.dagJSON, c :: rest⟩
  | 'b' :: 'c' :: c :: rest => some ⟨.dagCBOR, c :: rest⟩
  | 'b' :: 'o' :: c :: rest => some ⟨.codecOther c.toNat, rest⟩
  | _ => none

/-- Go's `strings.TrimPrefix(s, pre)`: `s` without the leading `pre`, or `s`
unchanged when `pre` is not a prefix.  The handler calls it with the
arguments in this order: `TrimPrefix("/", r.URL.RawPath)`. -/
def trimPrefixGo (s pre : List Char) : List Char :=
  if pre.isPrefixOf s then s.drop pre.length else s

/-- HTTP request method as the handler distinguishes it. -/
inductive HMethod where
  | mGET
  | mOther
deriving Repr, DecidableEq

/-- An HTTP response: status, optional Content-Type, optional body bytes. -/
structure HttpResponse where
  status : Nat
  contentType : Option String
  body : Option Bytes
deriving Repr, DecidableEq

/-- Look a block up by CID in the reader backend's block map. -/
def lookupBlock : List (HCid × Bytes) → HCid → Option Bytes
  | [], _ => none
  | (k, v) :: rest, c => if c = k then some v else lookupBlock rest c

/-- `httpPublisher.handleGetContent` (publisher_http.go:104): reject non-GET;
compute the path parameter as `strings.TrimPrefix("/", r.URL.RawPath)` —
transcribed exactly as written, arguments in that order; 400 when it is not a
CID; 404 when the block is absent; else serve the bytes with the codec's
content type, 500 for an unknown codec.  `blocks` models the reader backend
(`GetContent` misses are `CONTENT_NOT_FOUND`). -/
def handleGetContent (blocks : List (HCid × Bytes)) (method : HMethod)
    (rawPath : List Char) : HttpResponse :=
  match method with
  | .mOther => ⟨405, none, none⟩
  | .mGET =>
      let pathParam := trimPrefixGo [ '/' ] rawPath
      match cidDecode pathParam with
      | none => ⟨400, none, none⟩
      | some id =>
          match lookupBlock blocks id with
          | none => ⟨404, none, none⟩
          | some content =>
              match id.codec with
              | .dagJSON => ⟨200, some "application/json", some content⟩
              | .dagCBOR => ⟨200, some "application/cbor", some content⟩
              | .codecOther _ => ⟨500, none, none⟩

/-- The in-memory multihash iterator of catalog_mhs.go:31.  Its Go methods
take the receiver BY VALUE: `func (m mhIterator) Next(...)` runs on a copy of
the caller's iterator, so the deferred `m.index++` increments the copy and is
lost when the method returns. -/
structure MhIterGo where
  catalog : List Multihash
  index : Nat
deriving Repr, DecidableEq

/-- `mhIterator.Done` (catalog_mhs.go:44): `index >= len(catalog)`. -/
def MhIterGo.DoneGo (m : MhIterGo) : Bool := m.catalog.length ≤ m.index

/-- One caller-visible `Next` call on the value-receiver iterator
(catalog_mhs.go:36): the yielded multihash (`none` models the
"iterator already done" panic) together with the caller's iterator after the
call — which is the receiver unchanged, because the method mutated only its
copy. -/
def MhIterGo.NextCall (m : MhIterGo) : Option Multihash × MhIterGo :=
  if m.DoneGo then (none, m)
  else (m.catalog.get? m.index, m)

/-- `k` successive `Next` calls from the caller's point of view: the yields in
order, and the caller's iterator afterwards. -/
def iterCalls : Nat → MhIterGo → List (Option Multihash) × MhIterGo
  | 0, m => ([], m)
  | k + 1, m =>
      let r := m.NextCall
      let rest := iterCalls k r.2
      (r.1 :: rest.1, rest.2)

/-- `CatalogFromMultihashes(...).Iterator(ctx)` (catalog_mhs.go:25): the fresh
iterator over the slice. -/
def catalogIteratorGo (mhs : List Multihash) : MhIterGo := ⟨mhs, 0⟩

/-- For contrast, the pointer-receiver iterator of src/unnamed/part_001:211,
whose `Next` does advance the caller's iterator. -/
def MhIterGo.NextCallPtr (m : MhIterGo) : Option Multihash × MhIterGo :=
  if m.DoneGo then (none, m)
  else (m.catalog.get? m.index, { m with index := m.index + 1 })

lemma MhIterGo.NextCall_snd (m : MhIterGo) : m.NextCall.2 = m := by
  unfold MhIterGo.NextCall
  split <;> rfl

lemma iterCalls_snd (k : Nat) (m : MhIterGo) : (iterCalls k m).2 = m := by
  induction k generalizing m with
  | zero => rfl
  | succ k ih => simp [iterCalls, MhIterGo.NextCall_snd, ih]

/-- C10: the in-memory catalog iterator is NOT single-pass and exhaustive.
`mhIterator`'s Go methods use a value receiver, so the deferred `m.index++`
mutates a copy and the caller's iterator never advances: after any number of
`Next()` calls the iterator is unchanged, and on the two-element catalog
`[[0], [1]]` two successive `Next()` calls yield `[0]` twice — not each
multihash once in order — while `Done()` is still false.  This contradicts the
claim (and the pointer-receiver variant in src/unnamed/part_001, which does
advance), evidencing the code bug. -/
theorem mh_iterator_single_pass_bug :
    (∀ (mhs : List Multihash) (k : Nat),
      (iterCalls k (catalogIteratorGo mhs)).2 = catalogIteratorGo mhs) ∧
    (iterCalls 2 (catalogIteratorGo [[0], [1]])).1 = [some [0], some [0]] ∧
    (iterCalls 2 (catalogIteratorGo [[0], [1]])).2.DoneGo = false ∧
    (iterCalls 2 (catalogIteratorGo [[0], [1]])).1 ≠ [some [0], some [1]] := by
  refine ⟨fun mhs k => iterCalls_snd k _, by decide, by decide, by decide⟩

lemma trimPrefixGo_slash_cases (rawPath : List Char) :
    trimPrefixGo [ '/' ] rawPath = [ '/' ] ∨ trimPrefixGo [ '/' ] rawPath = [] := by
  match rawPath with
  | [] => exact Or.inl rfl
  | c :: rest =>
    by_cases hc : c = '/'
    · subst hc
      match rest with
      | [] => exact Or.inr rfl
      | d :: rest2 =>
        left
        simp [trimPrefixGo, List.isPrefixOf]
    · left
      simp [trimPrefixGo, List.isPrefixOf, hc]

/-- C8 evidence: `handleGetContent` computes the path parameter as
`strings.TrimPrefix("/", r.URL.RawPath)` — the arguments are swapped — so the
parameter is always `"/"` or `""`, never a CID, and EVERY GET request is
answered `400 Bad Request`, including requests for stored blocks.  The claim
describes the intended parse-the-path-tail behaviour, which the code never
reaches (spec §9 flags this as a bug in the source). -/
theorem http_content_route_always_400 (blocks : List (HCid × Bytes))
    (rawPath : List Char) :
    handleGetContent blocks .mGET rawPath = ⟨400, none, none⟩ := by
  unfold handleGetContent
  rcases trimPrefixGo_slash_cases rawPath with h | h <;> simp [h, cidDecode]

/-- C9 evidence: the S3 backend's head does not round-trip through the bucket.
`UpdateHead` committing CID 1 on a fresh empty bucket succeeds and writes the
signed head message at `/ipni/v1/ad/head` (the first two conjuncts — the write
side of the claim holds), but a fresh backend instance over the same bucket
reads key `head`, finds nothing, and returns `cid.Undef` instead of the
committed CID (the last conjunct), because `getHead` and `setHead` use
different keys. -/
theorem s3_head_round_trip_broken :
    (S3Backend.UpdateHead ⟨none, []⟩
        (fun _ => (.ok (some 1) : Except Unit (Option Cid)))).1 = .ok () ∧
    lookupObj (S3Backend.UpdateHead ⟨none, []⟩
        (fun _ => (.ok (some 1) : Except Unit (Option Cid)))).2.bucket s3HeadWriteKey
      = some ⟨signedHeadEncode 1, "application/json", "no-cache, no-store, must-revalidate"⟩ ∧
    (S3Backend.getHead ⟨none, (S3Backend.UpdateHead ⟨none, []⟩
        (fun _ => (.ok (some 1) : Except Unit (Option Cid)))).2.bucket⟩).1 = .ok none := by
  refine ⟨rfl, rfl, rfl⟩

lemma DsBackend.dsGetHead_idem (b : DsBackend) : ((b.getHead).2).getHead = b.getHead := by
  rcases b with ⟨cache, ds⟩
  cases cache
  · cases ds
    · rfl
    · next v =>
      cases hv : cidFromBytes v
      · simp [DsBackend.getHead, hv]
      · simp [DsBackend.getHead, hv]
  · rfl

lemma DsBackend.getHead_dsHead (b : DsBackend) : ((b.getHead).2).dsHead = b.dsHead := by
  rcases b with ⟨cache, ds⟩
  cases cache
  · cases ds
    · rfl
    · next v =>
      cases hv : cidFromBytes v
      · simp [DsBackend.getHead, hv]
      · simp [DsBackend.getHead, hv]
  · rfl

lemma S3Backend.s3GetHead_idem (b : S3Backend) : ((b.getHead).2).getHead = b.getHead := by
  rcases b with ⟨cache, bucket⟩
  cases cache
  · cases hv : lookupObj bucket s3HeadReadKey
    · simp [S3Backend.getHead, hv]
    · next obj =>
      cases hd : signedHeadDecode obj.body
      · simp [S3Backend.getHead, hv, hd]
      · simp [S3Backend.getHead, hv, hd]
  · rfl

lemma S3Backend.getHead_bucket (b : S3Backend) : ((b.getHead).2).bucket = b.bucket := by
  rcases b with ⟨cache, bucket⟩
  cases cache
  · cases hv : lookupObj bucket s3HeadReadKey
    · simp [S3Backend.getHead, hv]
    · next obj =>
      cases hd : signedHeadDecode obj.body
      · simp [S3Backend.getHead, hv, hd]
      · simp [S3Backend.getHead, hv, hd]
  · rfl

/-- C2: atomicity of the head update under failure of the inner function, for
both backends.  If `fn` (which includes the advertisement signing, encoding
and store steps of `generateAdvertisement`) returns an error, `UpdateHead`
returns that error, the persisted head record (datastore entry / bucket) is
untouched, and a `GetHead` after the failed call returns the same value as one
before it. -/
theorem update_head_atomic :
    (∀ (α : Type) (b : DsBackend) (fn : Option Cid → Except α (Option Cid))
        (prev : Option Cid) (e : α),
      (b.getHead).1 = .ok prev → fn prev = .error e →
        (b.UpdateHead fn).1 = .error (.inner e) ∧
        ((b.UpdateHead fn).2).dsHead = b.dsHead ∧
        (((b.UpdateHead fn).2).GetHead).1 = (b.GetHead).1) ∧
    (∀ (α : Type) (b : S3Backend) (fn : Option Cid → Except α (Option Cid))
        (prev : Option Cid) (e : α),
      (b.getHead).1 = .ok prev → fn prev = .error e →
        (b.UpdateHead fn).1 = .error (.inner e) ∧
        ((b.UpdateHead fn).2).bucket = b.bucket ∧
        (((b.UpdateHead fn).2).getHead).1 = (b.getHead).1) := by
  constructor
  · intro α b fn prev e hg hf
    have h2 : (b.UpdateHead fn).2 = (b.getHead).2 := by
      simp only [DsBackend.UpdateHead]
      rw [hg]
      simp [hf]
    have h1 : (b.UpdateHead fn).1 = .error (.inner e) := by
      simp only [DsBackend.UpdateHead]
      rw [hg]
      simp [hf]
    refine ⟨h1, ?_, ?_⟩
    · rw [h2]
      exact DsBackend.getHead_dsHead b
    · rw [h2]
      show (((b.getHead).2).getHead).1 = (b.getHead).1
      rw [DsBackend.dsGetHead_idem b]
  · intro α b fn prev e hg hf
    have h2 : (b.UpdateHead fn).2 = (b.getHead).2 := by
      simp only [S3Backend.UpdateHead]
      rw [hg]
      simp [hf]
    have h1 : (b.UpdateHead fn).1 = .error (.inner e) := by
      simp only [S3Backend.UpdateHead]
      rw [hg]
      simp [hf]
    refine ⟨h1, ?_, ?_⟩
    · rw [h2]
      exact S3Backend.getHead_bucket b
    · rw [h2, S3Backend.s3GetHead_idem b]

/-- Witness for C2: both backends, a head cache holding CID 2, and an inner
function that always fails with error 7. -/
theorem update_head_atomic_witness :
    ((DsBackend.getHead ⟨some 2, some [2]⟩).1 = .ok (some 2) ∧
      (fun _ => (.error 7 : Except Nat (Option Cid))) (some 2) = .error 7 ∧
      (DsBackend.UpdateHead ⟨some 2, some [2]⟩
          (fun _ => (.error 7 : Except Nat (Option Cid)))).1 = .error (.inner 7) ∧
      ((DsBackend.UpdateHead ⟨some 2, some [2]⟩
          (fun _ => (.error 7 : Except Nat (Option Cid)))).2).dsHead = some [2]) ∧
    ((S3Backend.getHead ⟨some 2, []⟩).1 = .ok (some 2) ∧
      (S3Backend.UpdateHead ⟨some 2, []⟩
          (fun _ => (.error 7 : Except Nat (Option Cid)))).1 = .error (.inner 7) ∧
      ((S3Backend.UpdateHead ⟨some 2, []⟩
          (fun _ => (.error 7 : Except Nat (Option Cid)))).2).bucket = []) := by
  have h1 := update_head_atomic.1 Nat ⟨some 2, some [2]⟩
    (fun _ => (.error 7 : Except Nat (Option Cid))) (some 2) 7 rfl rfl
  have h2 := update_head_atomic.2 Nat ⟨some 2, []⟩
    (fun _ => (.error 7 : Except Nat (Option Cid))) (some 2) 7 rfl rfl
  exact ⟨⟨rfl, rfl, h1.1, h1.2.1⟩, ⟨rfl, h2.1, h2.2.1⟩⟩

/-- C5: batcher regime split.  For `Count() > CountThreshold` the call is a
synchronous passthrough: it runs the with-ContextID assembler strategy, then
the announcement, returns the strategy's (or sender's) error verbatim, and
never touches the batching queues (`enqueuedCat = none`).  For
`Count() ≤ CountThreshold` — which includes the unknown count −1 whenever the
threshold is ≥ −1 — the catalog is handed to the pipeline channel, returning
nil on acceptance with the backend untouched, or the caller's cancellation
error if the context is cancelled before the hand-off is accepted.  Stated for
both `PublishCatalog` and `RetractCatalog`. -/
theorem batcher_regime_split (bc : BatchConfig) (cfg : ChainConfig)
    (announceErr : Cid → Option Nat) (handoff : Handoff) (cat : Catalog) (s : BState) :
    ((bc.countThreshold < cat.count →
        ∀ e s1, PublishWithContextID cfg cat s = (.error e, s1) →
          CatalogBatcher.PublishCatalog bc cfg announceErr handoff cat s
            = ⟨some (.chain e), s1, none⟩) ∧
      (bc.countThreshold < cat.count →
        ∀ h s1 a, PublishWithContextID cfg cat s = (.ok h, s1) → announceErr h = some a →
          CatalogBatcher.PublishCatalog bc cfg announceErr handoff cat s
            = ⟨some (.announce a), s1, none⟩) ∧
      (bc.countThreshold < cat.count →
        ∀ h s1, PublishWithContextID cfg cat s = (.ok h, s1) → announceErr h = none →
          CatalogBatcher.PublishCatalog bc cfg announceErr handoff cat s
            = ⟨none, s1, none⟩) ∧
      (cat.count ≤ bc.countThreshold → handoff = .accepted →
        CatalogBatcher.PublishCatalog bc cfg announceErr handoff cat s
          = ⟨none, s, some cat⟩) ∧
      (cat.count ≤ bc.countThreshold → ∀ e, handoff = .cancelled e →
        CatalogBatcher.PublishCatalog bc cfg announceErr handoff cat s
          = ⟨some (.ctx e), s, none⟩)) ∧
    ((bc.countThreshold < cat.count →
        ∀ e s1, RetractWithContextID cfg cat s = (.error e, s1) →
          CatalogBatcher.RetractCatalog bc cfg announceErr handoff cat s
            = ⟨some (.chain e), s1, none⟩) ∧
      (bc.countThreshold < cat.count →
        ∀ h s1 a, RetractWithContextID cfg cat s = (.ok h, s1) → announceErr h = some a →
          CatalogBatcher.RetractCatalog bc cfg announceErr handoff cat s
            = ⟨some (.announce a), s1, none⟩) ∧
      (bc.countThreshold < cat.count →
        ∀ h s1, RetractWithContextID cfg cat s = (.ok h, s1) → announceErr h = none →
          CatalogBatcher.RetractCatalog bc cfg announceErr handoff cat s
            = ⟨none, s1, none⟩) ∧
      (cat.count ≤ bc.countThreshold → handoff = .accepted →
        CatalogBatcher.RetractCatalog bc cfg announceErr handoff cat s
          = ⟨none, s, some cat⟩) ∧
      (cat.count ≤ bc.countThreshold → ∀ e, handoff = .cancelled e →
        CatalogBatcher.RetractCatalog bc cfg announceErr handoff cat s
          = ⟨some (.ctx e), s, none⟩)) := by
  constructor
  · refine ⟨?_, ?_, ?_, ?_, ?_⟩
    · intro hlt e s1 hps
      simp [CatalogBatcher.PublishCatalog, hlt, hps]
    · intro hlt h s1 a hps hann
      simp [CatalogBatcher.PublishCatalog, hlt, hps, hann]
    · intro hlt h s1 hps hann
      simp [CatalogBatcher.PublishCatalog, hlt, hps, hann]
    · intro hle hh
      subst hh
      simp [CatalogBatcher.PublishCatalog, not_lt.mpr hle]
    · intro hle e hh
      subst hh
      simp [CatalogBatcher.PublishCatalog, not_lt.mpr hle]
  · refine ⟨?_, ?_, ?_, ?_, ?_⟩
    · intro hlt e s1 hps
      simp [CatalogBatcher.RetractCatalog, hlt, hps]
    · intro hlt h s1 a hps hann
      simp [CatalogBatcher.RetractCatalog, hlt, hps, hann]
    · intro hlt h s1 hps hann
      simp [CatalogBatcher.RetractCatalog, hlt, hps, hann]
    · intro hle hh
      subst hh
      simp [CatalogBatcher.RetractCatalog, not_lt.mpr hle]
    · intro hle e hh
      subst hh
      simp [CatalogBatcher.RetractCatalog, not_lt.mpr hle]

/-- Witness for C5: threshold 10.  A catalog of count 3 is accepted by the
channel and enqueued unchanged; a catalog of count 11 with an empty ContextID
passes through and returns the assembler's INVALID_INPUT error without
touching the queue; a cancelled hand-off returns the cancellation error. -/
theorem batcher_regime_split_witness :
    ((3 : Int) ≤ (10 : Int) ∧
      CatalogBatcher.PublishCatalog ⟨10, 5⟩ ⟨2, "p", [], []⟩ (fun _ => none)
          .accepted ⟨[], 3, [[7]]⟩ BState.empty
        = ⟨none, BState.empty, some ⟨[], 3, [[7]]⟩⟩) ∧
    ((10 : Int) < (11 : Int) ∧
      PublishWithContextID ⟨2, "p", [], []⟩ ⟨[], 11, [[7]]⟩ BState.empty
        = (.error .invalidInput, BState.empty) ∧
      CatalogBatcher.PublishCatalog ⟨10, 5⟩ ⟨2, "p", [], []⟩ (fun _ => none)
          .accepted ⟨[], 11, [[7]]⟩ BState.empty
        = ⟨some (.chain .invalidInput), BState.empty, none⟩) ∧
    ((3 : Int) ≤ (10 : Int) ∧
      CatalogBatcher.RetractCatalog ⟨10, 5⟩ ⟨2, "p", [], []⟩ (fun _ => none)
          (.cancelled 4) ⟨[], 3, [[7]]⟩ BState.empty
        = ⟨some (.ctx 4), BState.empty, none⟩) := by
  refine ⟨⟨by decide, ?_⟩, ⟨by decide, rfl, ?_⟩, ⟨by decide, ?_⟩⟩
  · exact (batcher_regime_split ⟨10, 5⟩ ⟨2, "p", [], []⟩ (fun _ => none)
      .accepted ⟨[], 3, [[7]]⟩ BState.empty).1.2.2.2.1 (by decide) rfl
  · exact (batcher_regime_split ⟨10, 5⟩ ⟨2, "p", [], []⟩ (fun _ => none)
      .accepted ⟨[], 11, [[7]]⟩ BState.empty).1.1 (by decide) .invalidInput
      BState.empty rfl
  · exact (batcher_regime_split ⟨10, 5⟩ ⟨2, "p", [], []⟩ (fun _ => none)
      (.cancelled 4) ⟨[], 3, [[7]]⟩ BState.empty).2.2.2.2.2 (by decide) 4 rfl

/-- C6: batcher worker protocol.  On catalog arrival the whole multihash
sequence is appended to the batch (even when this overshoots the limit, as
the first conjunct's flushed contents show); if the batch has reached
`MaxMHsPerAdvertisement` it flushes immediately, else the timer is armed; a
timer fire flushes; after every flush — for any strategy outcome, including
errors — the batch is empty and the timer cleared; and over any event
sequence the flushed contents, in flush order, concatenated with the leftover
batch equal the arrived multihashes in catalog-arrival order. -/
theorem batcher_worker_protocol (maxMHs : Nat)
    (fnResult : List Multihash → Except Nat Cid) (announceOk : Cid → Bool) :
    (∀ (s : WState) (catMhs : List Multihash),
      maxMHs ≤ (s.batch ++ catMhs).length →
        workerStep maxMHs fnResult announceOk s (.arrival catMhs)
          = (⟨[], false⟩, some ⟨s.batch ++ catMhs, fnResult (s.batch ++ catMhs),
              match fnResult (s.batch ++ catMhs) with
              | .ok c => announceOk c
              | .error _ => false⟩)) ∧
    (∀ (s : WState) (catMhs : List Multihash),
      (s.batch ++ catMhs).length < maxMHs →
        workerStep maxMHs fnResult announceOk s (.arrival catMhs)
          = (⟨s.batch ++ catMhs, true⟩, none)) ∧
    (∀ s : WState,
      workerStep maxMHs fnResult announceOk s .timerFire
        = (⟨[], false⟩, some ⟨s.batch, fnResult s.batch,
            match fnResult s.batch with
            | .ok c => announceOk c
            | .error _ => false⟩)) ∧
    (∀ (evs : List WEvent) (s : WState),
      ((runWorker maxMHs fnResult announceOk evs s).2.map FlushRec.contents).flatten
          ++ (runWorker maxMHs fnResult announceOk evs s).1.batch
        = s.batch ++ (arrivalsOf evs).flatten) := by
  refine ⟨?_, ?_, ?_, ?_⟩
  · intro s catMhs hlen
    have hlen2 : maxMHs ≤ s.batch.length + catMhs.length := by simpa using hlen
    simp [workerStep, workerSend, hlen2]
  · intro s catMhs hlen
    have hlen2 : ¬ maxMHs ≤ s.batch.length + catMhs.length := by
      simpa using not_le.mpr hlen
    simp [workerStep, workerSend, hlen2]
  · intro s
    simp [workerStep, workerSend]
  · intro evs
    induction evs with
    | nil => intro s; simp [runWorker, arrivalsOf]
    | cons ev evs ih =>
      intro s
      cases ev with
      | timerFire =>
        have h2 := ih ⟨[], false⟩
        simp only [runWorker, workerStep, workerSend, arrivalsOf, List.map_cons,
          List.flatten_cons, List.append_assoc]
        rw [h2]
        simp
      | arrival catMhs =>
        by_cases hlen : maxMHs ≤ s.batch.length + catMhs.length
        · have h2 := ih ⟨[], false⟩
          simp only [runWorker, workerStep, workerSend, List.length_append, hlen,
            if_true, arrivalsOf, List.map_cons, List.flatten_cons, List.append_assoc]
          rw [h2]
          simp [List.append_assoc]
        · have h2 := ih ⟨s.batch ++ catMhs, true⟩
          simp only [runWorker, workerStep, workerSend, List.length_append, hlen,
            if_false, arrivalsOf, List.map_cons, List.flatten_cons, List.append_assoc]
          rw [h2]
          simp [List.append_assoc]

/-- Witness for C6: limit 3.  An arrival of two multihashes onto a batch of
one flushes exactly their concatenation in arrival order and resets the
state even though the strategy fails; a smaller arrival only arms the timer;
and the conservation equation holds on a concrete event sequence. -/
theorem batcher_worker_protocol_witness :
    (3 ≤ (([[1]] ++ [[2], [3]] : List Multihash)).length ∧
      workerStep 3 (fun _ => .error 9) (fun _ => true) ⟨[[1]], true⟩
          (.arrival [[2], [3]])
        = (⟨[], false⟩, some ⟨[[1], [2], [3]], .error 9, false⟩)) ∧
    ((([[1]] ++ [[2]] : List Multihash)).length < 3 ∧
      workerStep 3 (fun _ => .error 9) (fun _ => true) ⟨[[1]], false⟩
          (.arrival [[2]])
        = (⟨[[1], [2]], true⟩, none)) ∧
    ((runWorker 3 (fun _ => .error 9) (fun _ => true)
          [.arrival [[1], [2], [3]], .arrival [[4]], .timerFire] ⟨[], false⟩).2.map
            FlushRec.contents).flatten
        ++ (runWorker 3 (fun _ => .error 9) (fun _ => true)
          [.arrival [[1], [2], [3]], .arrival [[4]], .timerFire] ⟨[], false⟩).1.batch
      = ([] : List Multihash) ++ [[[1], [2], [3]] , [[4]]].flatten := by
  have h := batcher_worker_protocol 3 (fun _ => .error 9) (fun _ => true)
  refine ⟨⟨by decide, ?_⟩, ⟨by decide, ?_⟩, ?_⟩
  · exact h.1 ⟨[[1]], true⟩ [[2], [3]] (by decide)
  · exact h.2.1 ⟨[[1]], false⟩ [[2]] (by decide)
  · exact h.2.2.2 [.arrival [[1], [2], [3]], .arrival [[4]], .timerFire] ⟨[], false⟩

lemma generateAdvertisement_spec (cfg : ChainConfig) (id : Bytes)
    (entries : Option Cid) (isRm : Bool) (s : BState) :
    (generateAdvertisement cfg id entries isRm s).2.blocks
      = ((generateAdvertisement cfg id entries isRm s).1,
          Node.advertisement
            ⟨s.head, cfg.providerId, cfg.providerAddrs, entries, id, cfg.metadata, isRm⟩)
        :: s.blocks ∧
    (generateAdvertisement cfg id entries isRm s).2.head
      = some (generateAdvertisement cfg id entries isRm s).1 ∧
    (generateAdvertisement cfg id entries isRm s).1 = s.blocks.length + 1 :=
  ⟨rfl, rfl, rfl⟩

lemma generateEntriesGo_chunksOnly (size : Nat) :
    ∀ (rest buf : List Multihash) (next : Option Cid) (s : BState),
      ∃ new,
        ((generateEntriesGo size rest buf next s).2).blocks = new ++ s.blocks ∧
        (∀ p ∈ new, ∃ es nxt, p.2 = Node.entryChunk es nxt) ∧
        ((generateEntriesGo size rest buf next s).2).head = s.head := by
  intro rest
  induction rest with
  | nil =>
    intro buf next s
    by_cases hb : buf = []
    · subst hb
      exact ⟨[], by simp [generateEntriesGo], by simp, by simp [generateEntriesGo]⟩
    · refine ⟨[(s.freshCid, Node.entryChunk buf next)], ?_, ?_, ?_⟩
      · simp [generateEntriesGo, hb, generateEntriesChunk, BState.store]
      · intro p hp
        rw [List.mem_singleton] at hp
        subst hp
        exact ⟨buf, next, rfl⟩
      · simp [generateEntriesGo, hb, generateEntriesChunk, BState.store]
  | cons mh rest ih =>
    intro buf next s
    by_cases hc : size ≤ (buf ++ [mh]).length
    · obtain ⟨new1, hb1, hm1, hh1⟩ :=
        ih [] (some (generateEntriesChunk s next (buf ++ [mh])).1)
          (generateEntriesChunk s next (buf ++ [mh])).2
      refine ⟨new1 ++ [(s.freshCid, Node.entryChunk (buf ++ [mh]) next)], ?_, ?_, ?_⟩
      · simp only [generateEntriesGo, if_pos hc]
        rw [hb1]
        simp [generateEntriesChunk, BState.store, List.append_assoc]
      · intro p hp
        rcases List.mem_append.1 hp with hp | hp
        · exact hm1 p hp
        · rw [List.mem_singleton] at hp
          subst hp
          exact ⟨buf ++ [mh], next, rfl⟩
      · simp only [generateEntriesGo, if_pos hc]
        rw [hh1]
        simp [generateEntriesChunk, BState.store]
    · obtain ⟨new1, hb1, hm1, hh1⟩ := ih (buf ++ [mh]) next s
      refine ⟨new1, ?_, hm1, ?_⟩
      · simp only [generateEntriesGo, if_neg hc]
        exact hb1
      · simp only [generateEntriesGo, if_neg hc]
        exact hh1

lemma adsIn_chunks (new : List (Cid × Node))
    (h : ∀ p ∈ new, ∃ es nxt, p.2 = Node.entryChunk es nxt) : adsIn new = 0 := by
  rw [adsIn, List.countP_eq_zero]
  intro p hp
  obtain ⟨es, nxt, hnd⟩ := h p hp
  simp [hnd]

lemma adsIn_append (l1 l2 : List (Cid × Node)) :
    adsIn (l1 ++ l2) = adsIn l1 + adsIn l2 :=
  List.countP_append _ _ _

/-- C4: `PublishWithContextID` refuses a catalog whose ContextID is empty with
INVALID_INPUT, leaving the backend state — head and blocks — completely
untouched; for a catalog with a non-empty ContextID it proceeds to generate
the entry chunks and exactly one advertisement, whose CID becomes the new
head. -/
theorem publish_with_context_id_guard (cfg : ChainConfig) (cat : Catalog)
    (s : BState) :
    (cat.id = [] → PublishWithContextID cfg cat s = (.error .invalidInput, s)) ∧
    (cat.id ≠ [] →
      ∃ c s2, PublishWithContextID cfg cat s = (.ok c, s2) ∧
        adsIn s2.blocks = adsIn s.blocks + 1 ∧
        s2.head = some c) := by
  constructor
  · intro h
    simp [PublishWithContextID, h]
  · intro h
    have hlen : ¬ cat.id.length = 0 := by simpa using h
    obtain ⟨new, hblocks, hchunks, _⟩ :=
      generateEntriesGo_chunksOnly cfg.adEntriesChunkSize cat.mhs [] none s
    refine ⟨(generateAdvertisement cfg cat.id
        (generateEntries cfg.adEntriesChunkSize cat.mhs s).1 false
        (generateEntries cfg.adEntriesChunkSize cat.mhs s).2).1,
      (generateAdvertisement cfg cat.id
        (generateEntries cfg.adEntriesChunkSize cat.mhs s).1 false
        (generateEntries cfg.adEntriesChunkSize cat.mhs s).2).2, ?_, ?_, ?_⟩
    · simp only [PublishWithContextID, if_neg hlen]
    · have hads := (generateAdvertisement_spec cfg cat.id
        (generateEntries cfg.adEntriesChunkSize cat.mhs s).1 false
        (generateEntries cfg.adEntriesChunkSize cat.mhs s).2).1
      rw [hads, adsIn]
      rw [List.countP_cons]
      have : adsIn ((generateEntries cfg.adEntriesChunkSize cat.mhs s).2).blocks
          = adsIn s.blocks := by
        rw [show ((generateEntries cfg.adEntriesChunkSize cat.mhs s).2).blocks
            = new ++ s.blocks from hblocks, adsIn_append, adsIn_chunks new hchunks]
        simp
      rw [adsIn] at this
      rw [this]
      simp
    · exact (generateAdvertisement_spec cfg cat.id
        (generateEntries cfg.adEntriesChunkSize cat.mhs s).1 false
        (generateEntries cfg.adEntriesChunkSize cat.mhs s).2).2.1

/-- Witness for C4: an empty-ContextID catalog is refused with the state
untouched; the same catalog bearing ContextID `[9]` publishes one
advertisement that becomes the head. -/
theorem publish_with_context_id_guard_witness :
    (([] : Bytes) = [] ∧
      PublishWithContextID ⟨1, "p", [], []⟩ ⟨[], 1, [[4]]⟩ BState.empty
        = (.error .invalidInput, BState.empty)) ∧
    (([9] : Bytes) ≠ [] ∧
      ∃ c s2, PublishWithContextID ⟨1, "p", [], []⟩ ⟨[9], 1, [[4]]⟩ BState.empty
        = (.ok c, s2) ∧
        adsIn s2.blocks = adsIn BState.empty.blocks + 1 ∧
        s2.head = some c) := by
  refine ⟨⟨rfl, ?_⟩, ⟨by decide, ?_⟩⟩
  · exact (publish_with_context_id_guard ⟨1, "p", [], []⟩ ⟨[], 1, [[4]]⟩
      BState.empty).1 rfl
  · exact (publish_with_context_id_guard ⟨1, "p", [], []⟩ ⟨[9], 1, [[4]]⟩
      BState.empty).2 (by decide)

lemma findBlock_cons_ne (blocks : List (Cid × Node)) (k : Cid) (nd : Node)
    (c : Cid) (h : ¬ c = k) : findBlock ((k, nd) :: blocks) c = findBlock blocks c := by
  simp [findBlock, h]

lemma BlocksWF_nil : BlocksWF [] := by
  constructor
  · intro c nd h
    simp [findBlock] at h
  · intro c es next m h
    simp [findBlock] at h

lemma chunksAlong_none (blocks : List (Cid × Node)) (fuel : Nat) :
    chunksAlong blocks fuel none = [] := by
  cases fuel <;> rfl

lemma BlocksWF_push (blocks : List (Cid × Node)) (nd : Node) (hwf : BlocksWF blocks)
    (hnd : ∀ es nxt m, nd = Node.entryChunk es nxt → nxt = some m →
      1 ≤ m ∧ m ≤ blocks.length) :
    BlocksWF ((blocks.length + 1, nd) :: blocks) := by
  constructor
  · intro c nd' h
    by_cases hc : c = blocks.length + 1
    · subst hc
      simp
    · rw [findBlock_cons_ne blocks _ nd c hc] at h
      obtain ⟨h1, h2⟩ := hwf.1 c nd' h
      refine ⟨h1, ?_⟩
      simp only [List.length_cons]
      exact Nat.le_succ_of_le h2
  · intro c es next m h hm
    by_cases hc : c = blocks.length + 1
    · subst hc
      have hnd2 : nd = Node.entryChunk es next := by
        simpa [findBlock] using h
      obtain ⟨h1, h2⟩ := hnd es next m hnd2 hm
      exact ⟨h1, Nat.lt_succ_of_le h2⟩
    · rw [findBlock_cons_ne blocks _ nd c hc] at h
      exact hwf.2 c es next m h hm

lemma chunksAlong_push (blocks : List (Cid × Node)) (nd : Node)
    (hwf : BlocksWF blocks) :
    ∀ (fuel : Nat) (oc : Option Cid), OptValid blocks oc →
      chunksAlong ((blocks.length + 1, nd) :: blocks) fuel oc
        = chunksAlong blocks fuel oc := by
  intro fuel
  induction fuel with
  | zero =>
    intro oc _
    cases oc <;> rfl
  | succ fuel ih =>
    intro oc hv
    cases oc with
    | none => rfl
    | some c =>
      obtain ⟨hcb1, hcb2⟩ := hv c rfl
      have hc : ¬ c = blocks.length + 1 := by
        intro heq
        rw [heq] at hcb2
        exact Nat.not_succ_le_self blocks.length hcb2
      show (match findBlock ((blocks.length + 1, nd) :: blocks) c with
        | some (.entryChunk es next) =>
            (c, es) :: chunksAlong ((blocks.length + 1, nd) :: blocks) fuel next
        | _ => []) = _
      rw [findBlock_cons_ne blocks _ nd c hc]
      cases hf : findBlock blocks c with
      | none => simp [chunksAlong, hf]
      | some nd2 =>
        cases nd2 with
        | advertisement ad => simp [chunksAlong, hf]
        | entryChunk es next =>
          have hnext : OptValid blocks next := by
            intro m hm
            obtain ⟨g1, g2⟩ := hwf.2 c es next m hf hm
            obtain ⟨g3, g4⟩ := hwf.1 c _ hf
            exact ⟨g1, Nat.le_of_lt (Nat.lt_of_lt_of_le g2 g4)⟩
          simp only [chunksAlong, hf]
          rw [ih next hnext]

lemma findBlock_zero (blocks : List (Cid × Node)) (hwf : BlocksWF blocks) :
    findBlock blocks 0 = none := by
  cases hf : findBlock blocks 0 with
  | none => rfl
  | some nd =>
    obtain ⟨h1, _⟩ := hwf.1 0 nd hf
    exact absurd h1 (by decide)

lemma chunksAlong_fuel (blocks : List (Cid × Node)) (hwf : BlocksWF blocks) :
    ∀ (f1 f2 c : Nat), c ≤ f1 → c ≤ f2 →
      chunksAlong blocks f1 (some c) = chunksAlong blocks f2 (some c) := by
  intro f1
  induction f1 with
  | zero =>
    intro f2 c h1 _
    have hc : c = 0 := Nat.le_zero.1 h1
    subst hc
    cases f2 with
    | zero => rfl
    | succ f2 => simp [chunksAlong, findBlock_zero blocks hwf]
  | succ f1 ih =>
    intro f2 c h1 h2
    cases f2 with
    | zero =>
      have hc : c = 0 := Nat.le_zero.1 h2
      subst hc
      simp [chunksAlong, findBlock_zero blocks hwf]
    | succ f2 =>
      cases hf : findBlock blocks c with
      | none => simp [chunksAlong, hf]
      | some nd =>
        cases nd with
        | advertisement ad => simp [chunksAlong, hf]
        | entryChunk es next =>
          simp only [chunksAlong, hf]
          cases next with
          | none => rw [chunksAlong_none, chunksAlong_none]
          | some m =>
            obtain ⟨hm1, hm2⟩ := hwf.2 c es (some m) m hf rfl
            rw [ih f2 m (Nat.lt_succ_iff.mp (Nat.lt_of_lt_of_le hm2 h1))
              (Nat.lt_succ_iff.mp (Nat.lt_of_lt_of_le hm2 h2))]

lemma generateEntriesChunk_spec (s : BState) (next : Option Cid)
    (mhs : List Multihash) :
    (generateEntriesChunk s next mhs).1 = s.blocks.length + 1 ∧
    (generateEntriesChunk s next mhs).2.blocks
      = (s.blocks.length + 1, Node.entryChunk mhs next) :: s.blocks ∧
    (generateEntriesChunk s next mhs).2.head = s.head :=
  ⟨rfl, rfl, rfl⟩

lemma mem_tail_append_singleton {α : Type} {l : List α} {x p : α}
    (h : p ∈ (l ++ [x]).tail) : p ∈ l.tail ∨ p = x := by
  cases l with
  | nil => simp at h
  | cons a l2 =>
    simp only [List.cons_append, List.tail_cons] at h
    rcases List.mem_append.1 h with h | h
    · exact Or.inl h
    · exact Or.inr (List.mem_singleton.1 h)

/-- Invariant of the `generateEntries` loop: starting with a buffer shorter
than the chunk size, the loop only appends chunk blocks (each at most `size`
entries, all full except possibly the last-written), preserves
well-formedness, and the chain traversal from the returned link visits
exactly the new chunks, newest first, whose entries reversed and concatenated
are the buffered plus remaining multihashes in order. -/
lemma generateEntriesGo_spec (size : Nat) (hsize : 1 ≤ size) :
    ∀ (rest buf : List Multihash) (next : Option Cid) (s : BState),
      BlocksWF s.blocks → OptValid s.blocks next → buf.length < size →
      ∃ new,
        ((generateEntriesGo size rest buf next s).2).blocks = new ++ s.blocks ∧
        BlocksWF ((generateEntriesGo size rest buf next s).2).blocks ∧
        OptValid ((generateEntriesGo size rest buf next s).2).blocks
          (generateEntriesGo size rest buf next s).1 ∧
        (∀ p ∈ new, ∃ es nxt, p.2 = Node.entryChunk es nxt ∧ es.length ≤ size) ∧
        (∀ p ∈ new.tail, ∃ es nxt, p.2 = Node.entryChunk es nxt ∧ es.length = size) ∧
        chunksAlong ((generateEntriesGo size rest buf next s).2).blocks
            ((generateEntriesGo size rest buf next s).2).blocks.length
            (generateEntriesGo size rest buf next s).1
          = new.map (fun p => (p.1, entriesOfNode p.2))
              ++ chunksAlong s.blocks s.blocks.length next ∧
        (new.map (fun p => entriesOfNode p.2)).reverse.flatten = buf ++ rest := by
  intro rest
  induction rest with
  | nil =>
    intro buf next s hwf hnv hblt
    by_cases hb : buf = []
    · subst hb
      refine ⟨[], by simp [generateEntriesGo], ?_, ?_, by simp, by simp,
        by simp [generateEntriesGo], by simp [generateEntriesGo]⟩
      · simpa [generateEntriesGo] using hwf
      · simpa [generateEntriesGo] using hnv
    · have heq : generateEntriesGo size [] buf next s
          = (some (s.blocks.length + 1),
             ⟨(s.blocks.length + 1, Node.entryChunk buf next) :: s.blocks, s.head⟩) := by
        simp [generateEntriesGo, hb, generateEntriesChunk, BState.store, BState.freshCid]
      have hwf2 : BlocksWF ((s.blocks.length + 1, Node.entryChunk buf next) :: s.blocks) := by
        apply BlocksWF_push s.blocks _ hwf
        intro es nxt m hnd hm
        injection hnd with hes hnx
        subst hes
        subst hnx
        exact hnv m hm
      refine ⟨[(s.blocks.length + 1, Node.entryChunk buf next)], ?_, ?_, ?_, ?_, ?_, ?_, ?_⟩
      · rw [heq]
        simp
      · rw [heq]
        exact hwf2
      · rw [heq]
        intro m hm
        injection hm with hm
        subst hm
        simp
      · intro p hp
        rw [List.mem_singleton] at hp
        subst hp
        exact ⟨buf, next, rfl, Nat.le_of_lt hblt⟩
      · intro p hp
        simp at hp
      · rw [heq]
        simp only [List.length_cons]
        have hstep : chunksAlong
            ((s.blocks.length + 1, Node.entryChunk buf next) :: s.blocks)
            (s.blocks.length + 1) (some (s.blocks.length + 1))
            = (s.blocks.length + 1, buf)
              :: chunksAlong ((s.blocks.length + 1, Node.entryChunk buf next) :: s.blocks)
                  s.blocks.length next := by
          simp [chunksAlong, findBlock]
        rw [hstep, chunksAlong_push s.blocks _ hwf s.blocks.length next hnv]
        simp [entriesOfNode]
      · simp [entriesOfNode]
  | cons mh rest ih =>
    intro buf next s hwf hnv hblt
    by_cases hc : size ≤ (buf ++ [mh]).length
    · -- flush: the buffer has reached exactly the chunk size
      have hlen2 : (buf ++ [mh]).length = size := by
        simp only [List.length_append, List.length_singleton] at hc ⊢
        omega
      have hwf1 : BlocksWF
          ((s.blocks.length + 1, Node.entryChunk (buf ++ [mh]) next) :: s.blocks) := by
        apply BlocksWF_push s.blocks _ hwf
        intro es nxt m hnd hm
        injection hnd with hes hnx
        subst hes
        subst hnx
        exact hnv m hm
      have hc2 : size ≤ buf.length + 1 := by simpa using hc
      have heq : generateEntriesGo size (mh :: rest) buf next s
          = generateEntriesGo size rest [] (some (s.blocks.length + 1))
              ⟨(s.blocks.length + 1, Node.entryChunk (buf ++ [mh]) next) :: s.blocks,
               s.head⟩ := by
        simp [generateEntriesGo, hc2, generateEntriesChunk, BState.store, BState.freshCid]
      have hnv1 : OptValid
          ((s.blocks.length + 1, Node.entryChunk (buf ++ [mh]) next) :: s.blocks)
          (some (s.blocks.length + 1)) := by
        intro m hm
        injection hm with hm
        subst hm
        simp
      obtain ⟨new1, h1, h2, h3, h4, h5, h6, h7⟩ :=
        ih [] (some (s.blocks.length + 1))
          ⟨(s.blocks.length + 1, Node.entryChunk (buf ++ [mh]) next) :: s.blocks, s.head⟩
          hwf1 hnv1 (by simpa using hsize)
      refine ⟨new1 ++ [(s.blocks.length + 1, Node.entryChunk (buf ++ [mh]) next)],
        ?_, ?_, ?_, ?_, ?_, ?_, ?_⟩
      · rw [heq, h1]
        simp
      · rw [heq]
        exact h2
      · rw [heq]
        exact h3
      · intro p hp
        rcases List.mem_append.1 hp with hp | hp
        · exact h4 p hp
        · rw [List.mem_singleton] at hp
          subst hp
          exact ⟨buf ++ [mh], next, rfl, Nat.le_of_eq hlen2⟩
      · intro p hp
        rcases mem_tail_append_singleton hp with hp | hp
        · exact h5 p hp
        · subst hp
          exact ⟨buf ++ [mh], next, rfl, hlen2⟩
      · rw [heq, h6]
        have hstep : chunksAlong
            ((s.blocks.length + 1, Node.entryChunk (buf ++ [mh]) next) :: s.blocks)
            (((s.blocks.length + 1, Node.entryChunk (buf ++ [mh]) next) :: s.blocks).length)
            (some (s.blocks.length + 1))
            = (s.blocks.length + 1, buf ++ [mh])
              :: chunksAlong
                  ((s.blocks.length + 1, Node.entryChunk (buf ++ [mh]) next) :: s.blocks)
                  s.blocks.length next := by
          simp [chunksAlong, findBlock]
        rw [hstep, chunksAlong_push s.blocks _ hwf s.blocks.length next hnv]
        simp [entriesOfNode]
      · have h7b : ((new1.map fun p => entriesOfNode p.2).reverse).flatten = rest := by
          simpa using h7
        simp only [List.map_append, List.reverse_append, List.flatten_append, h7b]
        simp [entriesOfNode]
    · -- no flush: keep buffering
      have hblt2 : (buf ++ [mh]).length < size := lt_of_not_ge hc
      have hc2 : ¬ size ≤ buf.length + 1 := by simpa using hc
      have heq : generateEntriesGo size (mh :: rest) buf next s
          = generateEntriesGo size rest (buf ++ [mh]) next s := by
        simp [generateEntriesGo, hc2]
      obtain ⟨new, h1, h2, h3, h4, h5, h6, h7⟩ := ih (buf ++ [mh]) next s hwf hnv hblt2
      refine ⟨new, ?_, ?_, ?_, h4, h5, ?_, ?_⟩
      · rw [heq]
        exact h1
      · rw [heq]
        exact h2
      · rw [heq]
        exact h3
      · rw [heq]
        exact h6
      · rw [h7]
        simp

/-- C7: chunk-size bound.  For a positive `AdEntriesChunkSize`, every entry
chunk written by `generateEntries` holds at most `AdEntriesChunkSize`
multihashes, every written chunk except possibly the last-written residue
chunk (the head of `new`, which lists the written blocks newest first) holds
exactly `AdEntriesChunkSize`, and an empty catalog yields a null link with no
block written at all. -/
theorem chunk_size_bound (cfg : ChainConfig) (cat : Catalog) (s : BState)
    (hsize : 1 ≤ cfg.adEntriesChunkSize) (hwf : BlocksWF s.blocks) :
    ∃ new,
      ((generateEntries cfg.adEntriesChunkSize cat.mhs s).2).blocks = new ++ s.blocks ∧
      (∀ p ∈ new, ∃ es nxt, p.2 = Node.entryChunk es nxt ∧
        es.length ≤ cfg.adEntriesChunkSize) ∧
      (∀ p ∈ new.tail, ∃ es nxt, p.2 = Node.entryChunk es nxt ∧
        es.length = cfg.adEntriesChunkSize) ∧
      (cat.mhs = [] →
        (generateEntries cfg.adEntriesChunkSize cat.mhs s).1 = none ∧
        (generateEntries cfg.adEntriesChunkSize cat.mhs s).2 = s) := by
  have hnv : OptValid s.blocks none := fun m hm => Option.noConfusion hm
  obtain ⟨new, h1, _, _, h4, h5, _, _⟩ :=
    generateEntriesGo_spec cfg.adEntriesChunkSize hsize cat.mhs [] none s hwf hnv
      (by simpa using hsize)
  refine ⟨new, h1, h4, h5, ?_⟩
  intro he
  rw [he]
  exact ⟨by simp [generateEntries, generateEntriesGo],
    by simp [generateEntries, generateEntriesGo]⟩

/-- Witness for C7: chunk size 2 over the three-multihash catalog
`[[1],[2],[3]]` from the empty backend. -/
theorem chunk_size_bound_witness :
    1 ≤ 2 ∧
    ∃ new,
      ((generateEntries 2 [[1], [2], [3]] BState.empty).2).blocks
        = new ++ BState.empty.blocks ∧
      (∀ p ∈ new, ∃ es nxt, p.2 = Node.entryChunk es nxt ∧ es.length ≤ 2) ∧
      (∀ p ∈ new.tail, ∃ es nxt, p.2 = Node.entryChunk es nxt ∧ es.length = 2) ∧
      (([[1], [2], [3]] : List Multihash) = [] →
        (generateEntries 2 [[1], [2], [3]] BState.empty).1 = none ∧
        (generateEntries 2 [[1], [2], [3]] BState.empty).2 = BState.empty) :=
  ⟨by decide,
    chunk_size_bound ⟨2, "p", [], []⟩ ⟨[], 3, [[1], [2], [3]]⟩ BState.empty
      (by decide) BlocksWF_nil⟩

/-- C3: entry-chunk round-trip.  A raw publish of catalog `cat` yields one
advertisement whose entries link points at the chunk written last; the chunks
reachable from it by following `Next` are exactly the newly written chunk
blocks, newest first (each chunk's `Next` pointing at the previously written
one — the traversal order equals the reversed writing order); and
concatenating their `Entries` oldest-chunk-first (i.e. reversing the
tail-first traversal) gives back the catalog's multihashes in insertion
order. -/
theorem entry_chunk_round_trip (cfg : ChainConfig) (cat : Catalog) (s : BState)
    (hsize : 1 ≤ cfg.adEntriesChunkSize) (hwf : BlocksWF s.blocks) :
    ∃ adCid s2 ad new,
      PublishRawMHs cfg cat s = (.ok adCid, s2) ∧
      findBlock s2.blocks adCid = some (.advertisement ad) ∧
      ad.entries = (generateEntries cfg.adEntriesChunkSize cat.mhs s).1 ∧
      s2.blocks = (adCid, Node.advertisement ad) :: new ++ s.blocks ∧
      chunksAlong s2.blocks s2.blocks.length ad.entries
        = new.map (fun p => (p.1, entriesOfNode p.2)) ∧
      ((chunksAlong s2.blocks s2.blocks.length ad.entries).map Prod.snd).reverse.flatten
        = cat.mhs := by
  have hnv : OptValid s.blocks none := fun m hm => Option.noConfusion hm
  obtain ⟨new, h1, h2, h3, _, _, h6, h7⟩ :=
    generateEntriesGo_spec cfg.adEntriesChunkSize hsize cat.mhs [] none s hwf hnv
      (by simpa using hsize)
  rw [chunksAlong_none, List.append_nil] at h6
  have hgeq : generateEntriesGo cfg.adEntriesChunkSize cat.mhs [] none s
      = generateEntries cfg.adEntriesChunkSize cat.mhs s := rfl
  rw [hgeq] at h1 h2 h3 h6
  have hspec := generateAdvertisement_spec cfg []
    (generateEntries cfg.adEntriesChunkSize cat.mhs s).1 false
    (generateEntries cfg.adEntriesChunkSize cat.mhs s).2
  have hmain : chunksAlong
      ((generateAdvertisement cfg []
          (generateEntries cfg.adEntriesChunkSize cat.mhs s).1 false
          (generateEntries cfg.adEntriesChunkSize cat.mhs s).2).2).blocks
      ((generateAdvertisement cfg []
          (generateEntries cfg.adEntriesChunkSize cat.mhs s).1 false
          (generateEntries cfg.adEntriesChunkSize cat.mhs s).2).2).blocks.length
      (generateEntries cfg.adEntriesChunkSize cat.mhs s).1
      = new.map (fun p => (p.1, entriesOfNode p.2)) := by
    rw [hspec.1, hspec.2.2]
    simp only [List.length_cons]
    rw [chunksAlong_push _ _ h2 _ _ h3]
    have hfuel : chunksAlong
        ((generateEntries cfg.adEntriesChunkSize cat.mhs s).2).blocks
        (((generateEntries cfg.adEntriesChunkSize cat.mhs s).2).blocks.length + 1)
        (generateEntries cfg.adEntriesChunkSize cat.mhs s).1
        = chunksAlong
        ((generateEntries cfg.adEntriesChunkSize cat.mhs s).2).blocks
        ((generateEntries cfg.adEntriesChunkSize cat.mhs s).2).blocks.length
        (generateEntries cfg.adEntriesChunkSize cat.mhs s).1 := by
      cases hE : (generateEntries cfg.adEntriesChunkSize cat.mhs s).1 with
      | none => rw [chunksAlong_none, chunksAlong_none]
      | some c =>
        obtain ⟨hc1, hc2⟩ := h3 c hE
        exact chunksAlong_fuel _ h2 _ _ c (Nat.le_succ_of_le hc2) hc2
    rw [hfuel]
    exact h6
  refine ⟨(generateAdvertisement cfg []
      (generateEntries cfg.adEntriesChunkSize cat.mhs s).1 false
      (generateEntries cfg.adEntriesChunkSize cat.mhs s).2).1,
    (generateAdvertisement cfg []
      (generateEntries cfg.adEntriesChunkSize cat.mhs s).1 false
      (generateEntries cfg.adEntriesChunkSize cat.mhs s).2).2,
    ⟨((generateEntries cfg.adEntriesChunkSize cat.mhs s).2).head, cfg.providerId,
      cfg.providerAddrs, (generateEntries cfg.adEntriesChunkSize cat.mhs s).1, [],
      cfg.metadata, false⟩,
    new, rfl, ?_, rfl, ?_, hmain, ?_⟩
  · rw [hspec.1]
    simp [findBlock]
  · rw [hspec.1, h1]
    simp
  · rw [hmain]
    simp only [List.map_map]
    simpa using h7

/-- Witness for C3: chunk size 2 over the three-multihash catalog
`[[1],[2],[3]]` published raw from the empty backend. -/
theorem entry_chunk_round_trip_witness :
    1 ≤ 2 ∧
    ∃ adCid s2 ad new,
      PublishRawMHs ⟨2, "p", [], []⟩ ⟨[], 3, [[1], [2], [3]]⟩ BState.empty
        = (.ok adCid, s2) ∧
      findBlock s2.blocks adCid = some (.advertisement ad) ∧
      ad.entries = (generateEntries 2 [[1], [2], [3]] BState.empty).1 ∧
      s2.blocks = (adCid, Node.advertisement ad) :: new ++ BState.empty.blocks ∧
      chunksAlong s2.blocks s2.blocks.length ad.entries
        = new.map (fun p => (p.1, entriesOfNode p.2)) ∧
      ((chunksAlong s2.blocks s2.blocks.length ad.entries).map Prod.snd).reverse.flatten
        = [[1], [2], [3]] :=
  ⟨by decide,
    entry_chunk_round_trip ⟨2, "p", [], []⟩ ⟨[], 3, [[1], [2], [3]]⟩ BState.empty
      (by decide) BlocksWF_nil⟩

lemma ChainOk_push (blocks : List (Cid × Node)) (nd : Node) :
    ∀ (n : Nat) (c : Cid), ChainOk blocks n c →
      ChainOk ((blocks.length + 1, nd) :: blocks) n c := by
  intro n c h
  induction h with
  | base c ad h1 h2 hf hp =>
    refine ChainOk.base c ad h1 (by simpa using Nat.le_succ_of_le h2) ?_ hp
    rw [findBlock_cons_ne]
    · exact hf
    · intro heq
      rw [heq] at h2
      exact Nat.not_succ_le_self blocks.length h2
  | step c p n ad h1 h2 hf hp hrec ih =>
    refine ChainOk.step c p n ad h1 (by simpa using Nat.le_succ_of_le h2) ?_ hp ih
    rw [findBlock_cons_ne]
    · exact hf
    · intro heq
      rw [heq] at h2
      exact Nat.not_succ_le_self blocks.length h2

lemma ChainOk_pos (blocks : List (Cid × Node)) :
    ∀ (n : Nat) (c : Cid), ChainOk blocks n c → 1 ≤ n := by
  intro n c h
  cases h with
  | base _ _ _ _ _ _ => exact Nat.le_refl 1
  | step _ _ n _ _ _ _ _ _ => exact Nat.succ_le_succ (Nat.zero_le n)

lemma ChainOk_walk (blocks : List (Cid × Node)) :
    ∀ (n : Nat) (c : Cid), ChainOk blocks n c →
      ∃ cf ad, walkPrev blocks (n - 1) c = some cf ∧
        findBlock blocks cf = some (.advertisement ad) ∧ ad.previousID = none := by
  intro n c h
  induction h with
  | base c ad h1 h2 hf hp => exact ⟨c, ad, rfl, hf, hp⟩
  | step c p n ad h1 h2 hf hp hrec ih =>
    obtain ⟨cf, ad2, hw, hf2, hp2⟩ := ih
    refine ⟨cf, ad2, ?_, hf2, hp2⟩
    have hn := ChainOk_pos blocks n p hrec
    obtain ⟨m, rfl⟩ : ∃ m, n = m + 1 := ⟨n - 1, by omega⟩
    show walkPrev blocks (m + 1) c = some cf
    simp only [walkPrev, hf, hp]
    simpa using hw

lemma HeadInv_storeChunk (s : BState) (es : List Multihash) (next : Option Cid)
    (n : Nat) (h : HeadInv s n) :
    HeadInv (ChainOp.apply s (.storeChunk es next)) n := by
  rcases h with ⟨hn0, hh⟩ | ⟨hd, hh, hok⟩
  · exact Or.inl ⟨hn0, hh⟩
  · exact Or.inr ⟨hd, hh, ChainOk_push s.blocks _ n hd hok⟩

lemma HeadInv_writeAd (s : BState) (cfg : ChainConfig) (id : Bytes)
    (entries : Option Cid) (isRm : Bool) (n : Nat) (h : HeadInv s n) :
    HeadInv (ChainOp.apply s (.writeAd cfg id entries isRm)) (n + 1) := by
  rcases h with ⟨hn0, hh⟩ | ⟨hd, hh, hok⟩
  · subst hn0
    refine Or.inr ⟨s.blocks.length + 1, rfl, ?_⟩
    refine ChainOk.base (s.blocks.length + 1)
      ⟨s.head, cfg.providerId, cfg.providerAddrs, entries, id, cfg.metadata, isRm⟩
      (Nat.succ_le_succ (Nat.zero_le _))
      (by simp [ChainOp.apply, generateAdvertisement, BState.store, BState.freshCid]) ?_ hh
    simp [ChainOp.apply, generateAdvertisement, BState.store, BState.freshCid, findBlock]
  · refine Or.inr ⟨s.blocks.length + 1, rfl, ?_⟩
    refine ChainOk.step (s.blocks.length + 1) hd n
      ⟨s.head, cfg.providerId, cfg.providerAddrs, entries, id, cfg.metadata, isRm⟩
      (Nat.succ_le_succ (Nat.zero_le _))
      (by simp [ChainOp.apply, generateAdvertisement, BState.store, BState.freshCid]) ?_ hh
      (ChainOk_push s.blocks _ n hd hok)
    simp [ChainOp.apply, generateAdvertisement, BState.store, BState.freshCid, findBlock]

lemma HeadInv_runOps : ∀ (ops : List ChainOp) (s : BState) (n : Nat),
    HeadInv s n → HeadInv (runOps ops s) (n + countAds ops) := by
  intro ops
  induction ops with
  | nil =>
    intro s n h
    simpa [runOps, countAds] using h
  | cons op ops ih =>
    intro s n h
    cases op with
    | storeChunk es next =>
      have h2 := ih (ChainOp.apply s (.storeChunk es next)) n
        (HeadInv_storeChunk s es next n h)
      simpa [runOps, countAds] using h2
    | writeAd cfg id entries isRm =>
      have h2 := ih (ChainOp.apply s (.writeAd cfg id entries isRm)) (n + 1)
        (HeadInv_writeAd s cfg id entries isRm n h)
      have harith : n + 1 + countAds ops = n + countAds (ChainOp.writeAd cfg id entries isRm :: ops) := by
        simp [countAds]
        omega
      rw [← harith]
      simpa [runOps] using h2

/-- C1: chain linearity.  First conjunct: every advertisement written by
`generateAdvertisement` carries `PreviousID` equal to the head that existed
when it was assembled inside `UpdateHead` (null when the head was undefined),
and becomes the new head.  Second conjunct: after any operation trace from the
empty chain containing exactly `N ≥ 1` advertisement writes — interleaved with
arbitrary entry-chunk stores — following `PreviousID` from the head exactly
`N − 1` times reaches an advertisement whose `PreviousID` is null. -/
theorem chain_linearity (ops : List ChainOp) (N : Nat) (hN : 1 ≤ N)
    (hcount : countAds ops = N) :
    (∀ (cfg : ChainConfig) (id : Bytes) (entries : Option Cid) (isRm : Bool)
        (s : BState),
      ∃ ad, findBlock ((generateAdvertisement cfg id entries isRm s).2).blocks
              (generateAdvertisement cfg id entries isRm s).1
            = some (.advertisement ad) ∧
        ad.previousID = s.head ∧
        ((generateAdvertisement cfg id entries isRm s).2).head
          = some (generateAdvertisement cfg id entries isRm s).1) ∧
    ∃ h c ad, (runOps ops BState.empty).head = some h ∧
      walkPrev (runOps ops BState.empty).blocks (N - 1) h = some c ∧
      findBlock (runOps ops BState.empty).blocks c = some (.advertisement ad) ∧
      ad.previousID = none := by
  constructor
  · intro cfg id entries isRm s
    refine ⟨⟨s.head, cfg.providerId, cfg.providerAddrs, entries, id, cfg.metadata,
      isRm⟩, ?_, rfl, rfl⟩
    rw [(generateAdvertisement_spec cfg id entries isRm s).1]
    simp [findBlock]
  · have h2 := HeadInv_runOps ops BState.empty 0 (Or.inl ⟨rfl, rfl⟩)
    rw [Nat.zero_add, hcount] at h2
    rcases h2 with ⟨hn0, _⟩ | ⟨hd, hh, hok⟩
    · exact absurd hn0 (by omega)
    · obtain ⟨cf, ad, hw, hf, hp⟩ := ChainOk_walk _ N hd hok
      exact ⟨hd, cf, ad, hh, hw, hf, hp⟩

/-- Witness for C1: a trace of two advertisement writes with an entry-chunk
store between them, from the empty chain. -/
theorem chain_linearity_witness :
    1 ≤ 2 ∧
    countAds [ChainOp.writeAd ⟨1, "p", [], []⟩ [] none false,
      ChainOp.storeChunk [[5]] none,
      ChainOp.writeAd ⟨1, "p", [], []⟩ [7] (some 1) true] = 2 ∧
    ((∀ (cfg : ChainConfig) (id : Bytes) (entries : Option Cid) (isRm : Bool)
        (s : BState),
      ∃ ad, findBlock ((generateAdvertisement cfg id entries isRm s).2).blocks
              (generateAdvertisement cfg id entries isRm s).1
            = some (.advertisement ad) ∧
        ad.previousID = s.head ∧
        ((generateAdvertisement cfg id entries isRm s).2).head
          = some (generateAdvertisement cfg id entries isRm s).1) ∧
    ∃ h c ad,
      (runOps [ChainOp.writeAd ⟨1, "p", [], []⟩ [] none false,
        ChainOp.storeChunk [[5]] none,
        ChainOp.writeAd ⟨1, "p", [], []⟩ [7] (some 1) true] BState.empty).head
          = some h ∧
      walkPrev (runOps [ChainOp.writeAd ⟨1, "p", [], []⟩ [] none false,
        ChainOp.storeChunk [[5]] none,
        ChainOp.writeAd ⟨1, "p", [], []⟩ [7] (some 1) true] BState.empty).blocks
          (2 - 1) h = some c ∧
      findBlock (runOps [ChainOp.writeAd ⟨1, "p", [], []⟩ [] none false,
        ChainOp.storeChunk [[5]] none,
        ChainOp.writeAd ⟨1, "p", [], []⟩ [7] (some 1) true] BState.empty).blocks c
          = some (.advertisement ad) ∧
      ad.previousID = none) :=
  ⟨by decide, rfl,
    chain_linearity [ChainOp.writeAd ⟨1, "p", [], []⟩ [] none false,
      ChainOp.storeChunk [[5]] none,
      ChainOp.writeAd ⟨1, "p", [], []⟩ [7] (some 1) true] 2 (by decide) rfl⟩

end Herald
